import Mathlib

/-!
Verification of the osu-taiko-drum firmware hit-detection pipeline.

This development shallowly embeds the core data structures and algorithms of
the firmware (`src/parser.rs`, `src/cross_correlation.rs`, `src/piezo.rs`)
into Lean and proves the specification claims about them.

Machine integers (`i16`, `u16`) are modelled as `Int`/`Nat`; fallible code
(Rust `panic!`, `expect`, `assert!`) is modelled by `Option`, with `none`
standing for an aborted (panicked) execution.  The sliding sample window is
embedded over `List Int`; the `heapless::Vec` sorted vector and the FIFO
array both become lists, with the capacity / bounds checks of the Rust
methods made explicit.
-/

namespace TaikoDrum

set_option maxRecDepth 8192

/-- Rust `slice::binary_search` on a list segment `[left, right)`:
returns `.ok mid` when an element equal to the probe is found, and
`.error left` with the final insertion point otherwise.  Mirrors the
standard library loop `mid = left + size / 2`, `Less → left = mid + 1`,
`Greater → right = mid`.  The loop terminates because `right - left`
shrinks each round; the structural fuel makes the function computable by
the kernel and is always sufficient when it starts at `right - left + 1`. -/
def binarySearchGo (l : List Int) (x : Int) : Nat → Nat → Nat → Except Nat Nat
  | 0, left, _ => .error left
  | fuel + 1, left, right =>
    if left < right then
      if l.getD (left + (right - left) / 2) 0 < x then
        binarySearchGo l x fuel (left + (right - left) / 2 + 1) right
      else if x < l.getD (left + (right - left) / 2) 0 then
        binarySearchGo l x fuel left (left + (right - left) / 2)
      else .ok (left + (right - left) / 2)
    else .error left

/-- Rust `slice::binary_search` over the whole list. -/
def binarySearch (l : List Int) (x : Int) : Except Nat Nat :=
  binarySearchGo l x (l.length + 1) 0 l.length

/-- Index used for insertion: the `let (Ok(i) | Err(i)) = ...` pattern of
`SampleWindow::store`. -/
def searchIdx (l : List Int) (x : Int) : Nat :=
  match binarySearch l x with
  | .ok i => i
  | .error i => i

/-- Rust `slice::is_sorted` (adjacent pairwise comparison). -/
def is_sortedB : List Int → Bool
  | [] => true
  | [_] => true
  | a :: b :: t => decide (a ≤ b) && is_sortedB (b :: t)

/-- Time window that holds `N` samples: an always-sorted copy, the FIFO ring
of the `N` last samples, and the write cursor (`SampleWindow` in
`src/parser.rs`). -/
structure SampleWindow where
  sorted : List Int
  fifo : List Int
  index_fifo : Nat
deriving Repr, DecidableEq

/-- `SampleWindow::new`: both the sorted copy and the FIFO hold `N` copies of
the filler value, and the cursor starts at zero. -/
def SampleWindow.new (N : Nat) (filler : Int) : SampleWindow :=
  { sorted := List.replicate N filler
    fifo := List.replicate N filler
    index_fifo := 0 }

/-- `SampleWindow::store`: removes the value at the write cursor from the
sorted copy (panicking when the lookup fails), inserts the new value at its
sorted position (panicking when the vector has no room or the index is out
of bounds, as `heapless::Vec::insert` would), overwrites the FIFO slot,
advances the cursor with the power-of-two mask, and finally asserts
sortedness.  `none` models a panic. -/
def SampleWindow.store (N : Nat) (w : SampleWindow) (new : Int) : Option SampleWindow :=
  let old := w.fifo.getD w.index_fifo 0
  match binarySearch w.sorted old with
  | .error _ => none
  | .ok i =>
    if i < w.sorted.length then
      let s1 := w.sorted.eraseIdx i
      let j := searchIdx s1 new
      if s1.length < N ∧ j ≤ s1.length then
        let s2 := s1.insertIdx j new
        let w' : SampleWindow :=
          { sorted := s2
            fifo := w.fifo.set w.index_fifo new
            index_fifo := (w.index_fifo + 1) &&& (N - 1) }
        if is_sortedB s2 then some w' else none
      else none
    else none

/-- `SampleWindow::min`: first element of the sorted copy. -/
def SampleWindow.min (w : SampleWindow) : Int :=
  w.sorted.getD 0 0

/-- `SampleWindow::max`: last element of the sorted copy. -/
def SampleWindow.max (w : SampleWindow) : Int :=
  w.sorted.getD (w.sorted.length - 1) 0

/-- `SampleWindow::threshold`: the median, i.e. the sorted copy at index
`N / 2`. -/
def SampleWindow.threshold (N : Nat) (w : SampleWindow) : Int :=
  w.sorted.getD (N / 2) 0

/-- Folding a whole sequence of `store` calls over a freshly constructed
window, propagating a panic of any step. -/
def storeAll (N : Nat) (filler : Int) (ops : List Int) : Option SampleWindow :=
  ops.foldl (fun ow v => ow.bind (fun w => SampleWindow.store N w v))
    (some (SampleWindow.new N filler))

/-! ### Basic facts about the binary search embedding -/

theorem is_sortedB_iff_chain : ∀ l : List Int, is_sortedB l = true ↔ List.Chain' (· ≤ ·) l
  | [] => by simp [is_sortedB]
  | [a] => by simp [is_sortedB]
  | a :: b :: t => by
    rw [is_sortedB, Bool.and_eq_true, decide_eq_true_eq, is_sortedB_iff_chain (b :: t),
      List.chain'_cons]

theorem is_sortedB_iff_pairwise (l : List Int) :
    is_sortedB l = true ↔ List.Pairwise (· ≤ ·) l := by
  rw [is_sortedB_iff_chain, List.chain'_iff_pairwise]

theorem sorted_getD_mono {l : List Int} (hs : List.Pairwise (· ≤ ·) l) {a b : Nat}
    (hab : a ≤ b) (hb : b < l.length) : l.getD a 0 ≤ l.getD b 0 := by
  rcases Nat.eq_or_lt_of_le hab with rfl | hab
  · exact le_refl _
  · have ha : a < l.length := lt_trans hab hb
    rw [List.getD_eq_getElem l 0 ha, List.getD_eq_getElem l 0 hb]
    exact (List.pairwise_iff_getElem.mp hs) a b ha hb hab

theorem binarySearchGo_ok {l : List Int} {x : Int} :
    ∀ {fuel left right i : Nat}, right ≤ l.length →
      binarySearchGo l x fuel left right = .ok i →
      i < l.length ∧ l.getD i 0 = x := by
  intro fuel
  induction fuel with
  | zero => intro left right i _ h; cases h
  | succ fuel ih =>
    intro left right i hr h
    rw [binarySearchGo] at h
    by_cases hlt : left < right
    · rw [if_pos hlt] at h
      by_cases hv : l.getD (left + (right - left) / 2) 0 < x
      · rw [if_pos hv] at h
        exact ih hr h
      · rw [if_neg hv] at h
        by_cases hv' : x < l.getD (left + (right - left) / 2) 0
        · rw [if_pos hv'] at h
          exact ih (le_trans (Nat.le_of_lt (by omega)) hr) h
        · rw [if_neg hv'] at h
          cases h
          exact ⟨lt_of_lt_of_le (by omega) hr, by omega⟩
    · rw [if_neg hlt] at h
      cases h

theorem binarySearchGo_err {l : List Int} {x : Int}
    (hsorted : List.Pairwise (· ≤ ·) l) :
    ∀ {fuel left right i : Nat}, right - left < fuel → left ≤ right →
      right ≤ l.length →
      (∀ k, k < left → l.getD k 0 < x) →
      (∀ k, right ≤ k → k < l.length → x < l.getD k 0) →
      binarySearchGo l x fuel left right = .error i →
      i ≤ l.length ∧ (∀ k, k < i → l.getD k 0 < x) ∧
        (∀ k, i ≤ k → k < l.length → x < l.getD k 0) := by
  intro fuel
  induction fuel with
  | zero => intro left right i hfuel _ _ _ _ _; omega
  | succ fuel ih =>
    intro left right i hfuel hlr hr hlo hhi h
    rw [binarySearchGo] at h
    by_cases hlt : left < right
    · rw [if_pos hlt] at h
      by_cases hv : l.getD (left + (right - left) / 2) 0 < x
      · rw [if_pos hv] at h
        refine ih (by omega) (by omega) hr ?_ hhi h
        intro k hk
        rcases Nat.lt_or_ge k left with hk' | hk'
        · exact hlo k hk'
        · exact lt_of_le_of_lt
            (sorted_getD_mono hsorted (by omega) (by omega)) hv
      · rw [if_neg hv] at h
        by_cases hv' : x < l.getD (left + (right - left) / 2) 0
        · rw [if_pos hv'] at h
          refine ih (by omega) (by omega) (le_trans (Nat.le_of_lt (by omega)) hr) hlo ?_ h
          intro k hk hk'
          rcases Nat.lt_or_ge k right with hk'' | hk''
          · exact lt_of_lt_of_le hv' (sorted_getD_mono hsorted hk hk')
          · exact hhi k hk'' hk'
        · rw [if_neg hv'] at h
          cases h
    · rw [if_neg hlt] at h
      cases h
      exact ⟨le_trans hlr hr, hlo, fun k hk hk' => hhi k (by omega) hk'⟩

theorem binarySearch_ok {l : List Int} {x : Int} {i : Nat}
    (h : binarySearch l x = .ok i) : i < l.length ∧ l.getD i 0 = x :=
  binarySearchGo_ok (le_refl _) h

theorem binarySearch_err {l : List Int} {x : Int} {i : Nat}
    (hsorted : List.Pairwise (· ≤ ·) l)
    (h : binarySearch l x = .error i) :
    i ≤ l.length ∧ (∀ k, k < i → l.getD k 0 < x) ∧
      (∀ k, i ≤ k → k < l.length → x < l.getD k 0) :=
  binarySearchGo_err hsorted (by omega) (Nat.zero_le _) (le_refl _) (by omega)
    (fun k hk hk' => absurd hk (by omega)) h

/-- When the probe is present in a sorted list, the binary search cannot end
in the `Err` branch. -/
theorem binarySearch_mem_ok {l : List Int} {x : Int}
    (hsorted : List.Pairwise (· ≤ ·) l) (hx : x ∈ l) :
    ∃ i, binarySearch l x = .ok i := by
  rcases hres : binarySearch l x with i | i
  · rcases List.mem_iff_getElem.mp hx with ⟨n, hn, hnx⟩
    rcases binarySearch_err hsorted hres with ⟨_, hlo, hhi⟩
    have hnd : l.getD n 0 = x := by rw [List.getD_eq_getElem l 0 hn]; exact hnx
    rcases Nat.lt_or_ge n i with hni | hni
    · exact absurd hnd (by have := hlo n hni; omega)
    · exact absurd hnd (by have := hhi n hni hn; omega)
  · exact ⟨i, rfl⟩

/-- The insertion index returned by `searchIdx` on a sorted list separates
the elements at most `x` from those at least `x`. -/
theorem searchIdx_spec {l : List Int} {x : Int}
    (hsorted : List.Pairwise (· ≤ ·) l) :
    searchIdx l x ≤ l.length ∧
      (∀ k, k < searchIdx l x → l.getD k 0 ≤ x) ∧
      (∀ k, searchIdx l x ≤ k → k < l.length → x ≤ l.getD k 0) := by
  unfold searchIdx
  rcases hres : binarySearch l x with i | i
  · rcases binarySearch_err hsorted hres with ⟨h1, h2, h3⟩
    exact ⟨h1, fun k hk => le_of_lt (h2 k hk), fun k hk hk' => le_of_lt (h3 k hk hk')⟩
  · rcases binarySearch_ok hres with ⟨h1, h2⟩
    refine ⟨le_of_lt h1, ?_, ?_⟩
    · intro k hk
      exact h2 ▸ sorted_getD_mono hsorted (le_of_lt hk) h1
    · intro k hk hk'
      exact h2 ▸ sorted_getD_mono hsorted hk hk'

/-! ### List helper lemmas -/

theorem perm_insertIdx (x : Int) :
    ∀ (j : Nat) (l : List Int), j ≤ l.length → (l.insertIdx j x).Perm (x :: l)
  | 0, l, _ => by simp
  | j + 1, [], h => absurd h (by simp)
  | j + 1, a :: t, h => by
    rw [List.insertIdx_succ_cons]
    exact ((perm_insertIdx x j t (by simpa using h)).cons a).trans (List.Perm.swap x a t)

theorem perm_getD_eraseIdx :
    ∀ (i : Nat) (l : List Int), i < l.length → l.Perm (l.getD i 0 :: l.eraseIdx i)
  | 0, a :: t, _ => by simp [List.Perm.refl]
  | i + 1, a :: t, h => by
    have ih := perm_getD_eraseIdx i t (by simpa using h)
    show (a :: t).Perm ((t.getD i 0) :: (a :: t.eraseIdx i))
    exact (ih.cons a).trans (List.Perm.swap _ _ _)

theorem perm_set (v : Int) :
    ∀ (i : Nat) (l : List Int), i < l.length → (l.set i v).Perm (v :: l.eraseIdx i)
  | 0, a :: t, _ => by simp [List.Perm.refl]
  | i + 1, a :: t, h => by
    have ih := perm_set v i t (by simpa using h)
    show (a :: t.set i v).Perm (v :: a :: t.eraseIdx i)
    exact (ih.cons a).trans (List.Perm.swap _ _ _)

theorem pairwise_le_insertIdx (x : Int) :
    ∀ (j : Nat) (l : List Int), List.Pairwise (· ≤ ·) l → j ≤ l.length →
      (∀ k, k < j → l.getD k 0 ≤ x) →
      (∀ k, j ≤ k → k < l.length → x ≤ l.getD k 0) →
      List.Pairwise (· ≤ ·) (l.insertIdx j x)
  | 0, l, hp, _, _, hhi => by
    rw [List.insertIdx_zero, List.pairwise_cons]
    refine ⟨?_, hp⟩
    intro b hb
    rcases List.mem_iff_getElem.mp hb with ⟨n, hn, rfl⟩
    exact (List.getD_eq_getElem l 0 hn) ▸ hhi n (Nat.zero_le _) hn
  | j + 1, [], _, h, _, _ => absurd h (by simp)
  | j + 1, a :: t, hp, hj, hlo, hhi => by
    rw [List.insertIdx_succ_cons, List.pairwise_cons]
    rcases List.pairwise_cons.mp hp with ⟨ha, hpt⟩
    refine ⟨?_, pairwise_le_insertIdx x j t hpt (by simpa using hj)
      (fun k hk => hlo (k + 1) (by omega))
      (fun k hk hk' => hhi (k + 1) (by omega) (by simpa using hk'))⟩
    intro b hb
    rcases (List.mem_insertIdx (by simpa using hj)).mp hb with rfl | hb
    · exact hlo 0 (by omega)
    · exact ha b hb

/-! ### The master specification of one `store` call -/

/-- Window well-formedness: `N` values in the FIFO, cursor in range, and the
sorted copy a sorted permutation of the FIFO contents. -/
def SampleWindow.WF (N : Nat) (w : SampleWindow) : Prop :=
  w.fifo.length = N ∧ w.index_fifo < N ∧
    w.sorted.Perm w.fifo ∧ is_sortedB w.sorted = true

theorem store_spec (N k : Nat) (hN : N = 2 ^ k) (w : SampleWindow) (v : Int)
    (hwf : w.WF N) :
    ∃ i w', binarySearch w.sorted (w.fifo.getD w.index_fifo 0) = .ok i ∧
      SampleWindow.store N w v = some w' ∧
      w'.fifo = w.fifo.set w.index_fifo v ∧
      w'.index_fifo = (w.index_fifo + 1) % N ∧
      w'.sorted = (w.sorted.eraseIdx i).insertIdx
        (searchIdx (w.sorted.eraseIdx i) v) v ∧
      w'.sorted.Perm (v :: w.sorted.eraseIdx i) ∧
      w'.WF N := by
  obtain ⟨hlen, hidx, hperm, hsort⟩ := hwf
  have hps : List.Pairwise (· ≤ ·) w.sorted := (is_sortedB_iff_pairwise _).mp hsort
  have hslen : w.sorted.length = N := hperm.length_eq.trans hlen
  have hNpos : 0 < N := hN ▸ Nat.pos_pow_of_pos k (by omega)
  set old := w.fifo.getD w.index_fifo 0 with hold
  have hidx' : w.index_fifo < w.fifo.length := hlen ▸ hidx
  have holdmem : old ∈ w.sorted := by
    rw [hperm.mem_iff, hold, List.getD_eq_getElem w.fifo 0 hidx']
    exact List.getElem_mem hidx'
  obtain ⟨i, hI⟩ := binarySearch_mem_ok hps holdmem
  obtain ⟨hi_lt, hi_eq⟩ := binarySearch_ok hI
  set s1 := w.sorted.eraseIdx i with hs1
  have hs1len : s1.length = N - 1 := by
    rw [hs1, List.length_eraseIdx, if_pos hi_lt, hslen]
  have hs1pair : List.Pairwise (· ≤ ·) s1 :=
    List.Pairwise.sublist (List.eraseIdx_sublist _ i) hps
  obtain ⟨hj_le, hj_lo, hj_hi⟩ := searchIdx_spec (l := s1) (x := v) hs1pair
  set j := searchIdx s1 v with hj
  set s2 := s1.insertIdx j v with hs2
  have hs2pair : List.Pairwise (· ≤ ·) s2 :=
    pairwise_le_insertIdx v j s1 hs1pair hj_le hj_lo hj_hi
  have hs2sort : is_sortedB s2 = true := (is_sortedB_iff_pairwise _).mpr hs2pair
  have hs2perm : s2.Perm (v :: s1) := perm_insertIdx v j s1 hj_le
  have hstore : SampleWindow.store N w v = some
      { sorted := s2, fifo := w.fifo.set w.index_fifo v,
        index_fifo := (w.index_fifo + 1) &&& (N - 1) } := by
    simp only [SampleWindow.store, ← hold, hI]
    rw [if_pos hi_lt, if_pos (⟨by omega, hj_le⟩ :
      s1.length < N ∧ searchIdx s1 v ≤ s1.length), if_pos hs2sort]
  have hmask : (w.index_fifo + 1) &&& (N - 1) = (w.index_fifo + 1) % N := by
    rw [hN]; exact Nat.and_pow_two_sub_one_eq_mod _ k
  refine ⟨i, _, hI, hstore, rfl, hmask, rfl, hs2perm, ?_⟩
  have hserase : s1.Perm (w.fifo.eraseIdx w.index_fifo) := by
    have h1 : w.sorted.Perm (old :: s1) := by
      have := perm_getD_eraseIdx i w.sorted hi_lt
      rwa [hi_eq] at this
    have h2 : w.fifo.Perm (old :: w.fifo.eraseIdx w.index_fifo) := by
      have := perm_getD_eraseIdx w.index_fifo w.fifo hidx'
      rwa [← hold] at this
    exact (h1.symm.trans (hperm.trans h2)).cons_inv
  refine ⟨by simp [List.length_set, hlen], ?_, ?_, hs2sort⟩
  · show (w.index_fifo + 1) &&& (N - 1) < N
    rw [hmask]
    exact Nat.mod_lt _ hNpos
  · show s2.Perm (w.fifo.set w.index_fifo v)
    exact (hs2perm.trans (hserase.cons v)).trans (perm_set v _ _ hidx').symm

/-! ### The FIFO ring holds exactly the most recent `N` values of the stream -/

theorem take_succ_set (v : Int) :
    ∀ (i : Nat) (l : List Int), i < l.length →
      (l.set i v).take (i + 1) = l.take i ++ [v]
  | 0, _ :: _, _ => rfl
  | i + 1, a :: t, h => by
    show a :: (t.set i v).take (i + 1) = a :: (t.take i ++ [v])
    rw [take_succ_set v i t (by simpa using h)]

/-- One `store`-shaped update of the ring: overwriting the slot at the cursor
and advancing the cursor keeps the rotated ring equal to the last `N` values
of the extended stream. -/
theorem fifo_rotate_step (l : List Int) (idx : Nat) (v : Int) (r : List Int)
    (hidx : idx < l.length) (hrot : l.rotate idx = r) :
    (l.set idx v).rotate ((idx + 1) % l.length) = r.drop 1 ++ [v] := by
  have hlen : (l.set idx v).length = l.length := List.length_set l idx v
  have h1 : (l.set idx v).rotate ((idx + 1) % l.length) = (l.set idx v).rotate (idx + 1) := by
    rw [← hlen, List.rotate_mod]
  rw [h1, List.rotate_eq_drop_append_take (by omega),
    List.drop_set_of_lt _ _ (by omega), take_succ_set v idx l hidx]
  rw [← hrot, List.rotate_eq_drop_append_take (le_of_lt hidx),
    List.drop_append_of_le_length (by simp [List.length_drop]; omega),
    List.drop_drop]
  simp

/-- Well-formedness together with the ring/stream relation: the FIFO rotated
at the cursor equals the last `N` elements of the sample stream `s`. -/
def WFs (N : Nat) (s : List Int) (w : SampleWindow) : Prop :=
  w.WF N ∧ w.fifo.rotate w.index_fifo = s.drop (s.length - N)

theorem is_sortedB_replicate (n : Nat) (c : Int) :
    is_sortedB (List.replicate n c) = true := by
  induction n with
  | zero => rfl
  | succ m ih =>
    cases m with
    | zero => rfl
    | succ m' =>
      show is_sortedB (c :: c :: List.replicate m' c) = true
      rw [is_sortedB]
      simp only [Bool.and_eq_true, decide_eq_true_eq]
      exact ⟨le_refl c, ih⟩

theorem store_WFs (N k : Nat) (hN : N = 2 ^ k) (s : List Int) (w : SampleWindow)
    (v : Int) (hwfs : WFs N s w) :
    ∃ w', SampleWindow.store N w v = some w' ∧ WFs N (s ++ [v]) w' := by
  obtain ⟨hwf, hrot⟩ := hwfs
  obtain ⟨hlen, hidx, hperm, hsort⟩ := hwf
  have hsN : N ≤ s.length := by
    have := congrArg List.length hrot
    simp [List.length_rotate, List.length_drop, hlen] at this
    omega
  obtain ⟨i, w', hI, hst, hfifo, hix, hseq, hsperm, hwf'⟩ :=
    store_spec N k hN w v ⟨hlen, hidx, hperm, hsort⟩
  refine ⟨w', hst, hwf', ?_⟩
  have hNpos : 0 < N := hN ▸ Nat.pos_pow_of_pos k (by omega)
  have hstep := fifo_rotate_step w.fifo w.index_fifo v _ (hlen ▸ hidx) hrot
  have hix' : w'.index_fifo = (w.index_fifo + 1) % w.fifo.length := by rw [hix, hlen]
  have hm : s.length + 1 - N = (s.length - N) + 1 := by omega
  rw [hfifo, hix', hstep, List.length_append, List.length_singleton, hm,
    List.drop_append_of_le_length (by omega), List.drop_drop]

theorem storeAll_WFs (N k : Nat) (hN : N = 2 ^ k) (filler : Int) (ops : List Int) :
    ∃ w, storeAll N filler ops = some w ∧
      WFs N (List.replicate N filler ++ ops) w := by
  induction ops using List.reverseRecOn with
  | nil =>
    refine ⟨SampleWindow.new N filler, rfl,
      ⟨⟨by simp [SampleWindow.new], hN ▸ Nat.pos_pow_of_pos k (by omega),
        List.Perm.refl _, is_sortedB_replicate N filler⟩, ?_⟩⟩
    simp [SampleWindow.new, List.rotate_zero]
  | append_singleton ops v ih =>
    obtain ⟨w, hw, hwfs⟩ := ih
    obtain ⟨w', hst, hwfs'⟩ := store_WFs N k hN _ w v hwfs
    refine ⟨w', ?_, by simpa [List.append_assoc] using hwfs'⟩
    unfold storeAll at hw ⊢
    rw [List.foldl_append, hw]
    simpa using hst

/-! ### Claims about the sliding sample window -/

/-- C1: for every sequence of `store` calls on a `SampleWindow` of
power-of-two capacity `N`, starting from the freshly constructed window,
every store succeeds and afterwards the sorted vector is a sorted
permutation of the FIFO contents, which in turn are (as a multiset) exactly
the most recent `N` inserted values, fillers counting as inserted. -/
theorem window_invariant_all_stores (N k : Nat) (hN : N = 2 ^ k) (filler : Int)
    (ops : List Int) :
    ∃ w, storeAll N filler ops = some w ∧
      w.sorted.Perm w.fifo ∧ is_sortedB w.sorted = true ∧
      w.fifo.Perm ((List.replicate N filler ++ ops).drop ops.length) := by
  obtain ⟨w, hw, ⟨⟨hlen, hidx, hperm, hsort⟩, hrot⟩⟩ := storeAll_WFs N k hN filler ops
  refine ⟨w, hw, hperm, hsort, ?_⟩
  have hdrop : (List.replicate N filler ++ ops).length - N = ops.length := by
    simp [List.length_append, List.length_replicate]
  rw [← hdrop, ← hrot]
  exact (List.rotate_perm _ _).symm

theorem window_invariant_all_stores_witness :
    ∃ w, storeAll 2 0 [5, 3, 7] = some w ∧
      w.sorted.Perm w.fifo ∧ is_sortedB w.sorted = true ∧
      w.fifo.Perm ((List.replicate 2 (0 : Int) ++ [5, 3, 7]).drop 3) :=
  window_invariant_all_stores 2 1 rfl 0 [5, 3, 7]

/-- C4: on a well-formed window, `store` removes the oldest value (the FIFO
entry at the write cursor) from the sorted copy and the FIFO, inserts the
new value into both, and advances the write cursor by one modulo `N`. -/
theorem store_contract (N k : Nat) (hN : N = 2 ^ k) (w : SampleWindow) (v : Int)
    (hwf : w.WF N) :
    ∃ w', SampleWindow.store N w v = some w' ∧
      w'.fifo = w.fifo.set w.index_fifo v ∧
      w'.index_fifo = (w.index_fifo + 1) % N ∧
      w'.sorted.Perm (v :: w.sorted.erase (w.fifo.getD w.index_fifo 0)) := by
  obtain ⟨i, w', hI, hst, hfifo, hix, hseq, hsperm, hwf'⟩ := store_spec N k hN w v hwf
  obtain ⟨hi_lt, hi_eq⟩ := binarySearch_ok hI
  have holdmem : w.fifo.getD w.index_fifo 0 ∈ w.sorted := by
    rw [← hi_eq, List.getD_eq_getElem w.sorted 0 hi_lt]
    exact List.getElem_mem hi_lt
  have h1 : w.sorted.Perm (w.fifo.getD w.index_fifo 0 :: w.sorted.eraseIdx i) := by
    have := perm_getD_eraseIdx i w.sorted hi_lt
    rwa [hi_eq] at this
  have h2 := List.perm_cons_erase holdmem
  have h3 : (w.sorted.eraseIdx i).Perm
      (w.sorted.erase (w.fifo.getD w.index_fifo 0)) := (h1.symm.trans h2).cons_inv
  exact ⟨w', hst, hfifo, hix, hsperm.trans (h3.cons v)⟩

theorem store_contract_witness :
    ∃ w', SampleWindow.store 2 ⟨[0, 0], [0, 0], 0⟩ 7 = some w' ∧
      w'.fifo = List.set [0, 0] 0 7 ∧
      w'.index_fifo = (0 + 1) % 2 ∧
      w'.sorted.Perm (7 :: List.erase [0, 0] (List.getD [0, 0] 0 0)) :=
  store_contract 2 1 rfl ⟨[0, 0], [0, 0], 0⟩ 7
    ⟨rfl, by decide, List.Perm.refl _, rfl⟩

/-- C5: whenever the binary search for the old FIFO value in the sorted copy
fails, `store` aborts (the removal is never silently skipped), and on a
well-formed window this failure never occurs: the search succeeds and the
whole `store` completes. -/
theorem store_removal_error_handling (N k : Nat) (hN : N = 2 ^ k)
    (w : SampleWindow) (v : Int) (hwf : w.WF N) :
    (∀ (u : SampleWindow) (x : Int) (e : Nat),
        binarySearch u.sorted (u.fifo.getD u.index_fifo 0) = .error e →
        SampleWindow.store N u x = none) ∧
    (∃ i, binarySearch w.sorted (w.fifo.getD w.index_fifo 0) = .ok i) ∧
    SampleWindow.store N w v ≠ none := by
  refine ⟨?_, ?_⟩
  · intro u x e he
    simp only [SampleWindow.store, he]
  · obtain ⟨i, w', hI, hst, _⟩ := store_spec N k hN w v hwf
    exact ⟨⟨i, hI⟩, by simp [hst]⟩

theorem store_removal_error_handling_witness :
    (∀ (u : SampleWindow) (x : Int) (e : Nat),
        binarySearch u.sorted (u.fifo.getD u.index_fifo 0) = .error e →
        SampleWindow.store 2 u x = none) ∧
    (∃ i, binarySearch (SampleWindow.mk [0, 0] [0, 0] 0).sorted
        ((SampleWindow.mk [0, 0] [0, 0] 0).fifo.getD
          (SampleWindow.mk [0, 0] [0, 0] 0).index_fifo 0) = .ok i) ∧
    SampleWindow.store 2 ⟨[0, 0], [0, 0], 0⟩ 7 ≠ none :=
  store_removal_error_handling 2 1 rfl ⟨[0, 0], [0, 0], 0⟩ 7
    ⟨rfl, by decide, List.Perm.refl _, rfl⟩

/-- C10: on a well-formed window of capacity `N`, after the removal of the
old value succeeds the sorted vector holds `N - 1` elements, so the
insertion of the new value always succeeds and the vector is sorted again:
`store` completes with a full, sorted vector. -/
theorem store_insert_succeeds (N k : Nat) (hN : N = 2 ^ k) (w : SampleWindow)
    (v : Int) (hwf : w.WF N) :
    ∃ i w', binarySearch w.sorted (w.fifo.getD w.index_fifo 0) = .ok i ∧
      (w.sorted.eraseIdx i).length = N - 1 ∧
      SampleWindow.store N w v = some w' ∧
      w'.sorted.length = N ∧ is_sortedB w'.sorted = true := by
  obtain ⟨i, w', hI, hst, hfifo, hix, hseq, hsperm, hwf'⟩ := store_spec N k hN w v hwf
  obtain ⟨hi_lt, _⟩ := binarySearch_ok hI
  have hslen : w.sorted.length = N := hwf.2.2.1.length_eq.trans hwf.1
  refine ⟨i, w', hI, ?_, hst, ?_, hwf'.2.2.2⟩
  · rw [List.length_eraseIdx, if_pos hi_lt, hslen]
  · exact hwf'.2.2.1.length_eq.trans hwf'.1

theorem store_insert_succeeds_witness :
    ∃ i w', binarySearch (SampleWindow.mk [0, 0] [0, 0] 0).sorted
        ((SampleWindow.mk [0, 0] [0, 0] 0).fifo.getD
          (SampleWindow.mk [0, 0] [0, 0] 0).index_fifo 0) = .ok i ∧
      ((SampleWindow.mk [0, 0] [0, 0] 0).sorted.eraseIdx i).length = 2 - 1 ∧
      SampleWindow.store 2 ⟨[0, 0], [0, 0], 0⟩ 7 = some w' ∧
      w'.sorted.length = 2 ∧ is_sortedB w'.sorted = true :=
  store_insert_succeeds 2 1 rfl ⟨[0, 0], [0, 0], 0⟩ 7
    ⟨rfl, by decide, List.Perm.refl _, rfl⟩

/-! ### The deviation check (`check_deviation` in `src/parser.rs`)

The Rust code computes with `f32`; it is modelled here over `ℚ`.  At the
inputs of the claims every intermediate `f32` value (differences of small
integers, quotients by 64 and by 100, the constants 0.5 and 1.0) is exactly
representable, so the rational model agrees with the floating-point code
there. -/

/-- Rust `relative_deviation`: `|value - median| / scale`. -/
def relative_deviation (median value : Int) (scale : Nat) : ℚ :=
  ((value - median).natAbs : ℚ) / (scale : ℚ)

/-- Rust `check_deviation`: a hit is reported when the deviation of either
extreme from the median exceeds `percent / 100`. -/
def check_deviation (median min_val max_val : Int) (scale : Nat) (percent : Nat) : Bool :=
  let max_dev := relative_deviation median max_val scale
  let min_dev := relative_deviation median min_val scale
  let pc := (percent : ℚ) / 100
  decide (max_dev > pc) || decide (min_dev > pc)

/-- C8: with median 100, min 90, max 140, sharpness 64 the maximal relative
deviation is 40/64 = 0.625, so sensitivity 50 (threshold 0.5) reports a hit
and sensitivity 100 (threshold 1.0) does not. -/
theorem check_deviation_boundary :
    check_deviation 100 90 140 64 50 = true ∧
      check_deviation 100 90 140 64 100 = false := by
  constructor <;>
    · rw [check_deviation]
      norm_num [relative_deviation]

/-! ### FFT-based cross correlation (`xcorr` in `src/cross_correlation.rs`)

The forward fixed-point transform, the element-wise multiplication by the
complex conjugate and the inverse transform are performed by
`fft_radix2_q15` of the external `fixed_fft` crate, which is not part of
this repository.  Modelled from the spec: that frequency-domain segment is
abstracted by the exact circular cross-correlation it computes, and the
transform's failure condition is a buffer length that is not a power of
two (for correctly sized inputs it never fails). -/

/-- Power-of-two test on the transform length, computed with the usual
`n != 0 && n & (n - 1) == 0` mask test. -/
def isPow2 (n : Nat) : Bool :=
  decide (n ≠ 0) && decide (n &&& (n - 1) = 0)

/-- Rust `slice::rotate_right(k)`: the last `k` elements move to the front. -/
def rotRight (l : List Int) (k : Nat) : List Int :=
  l.drop (l.length - k) ++ l.take (l.length - k)

/-- State-passing fold behind `iter().enumerate().max_by_key(..)`: carries
the index of the current element and the best (index, value) pair, where a
later element wins ties, as the Rust iterator maximum does. -/
def lamAux : List Int → Nat → Nat × Int → Nat × Int
  | [], _, b => b
  | v :: rest, i, b => lamAux rest (i + 1) (if b.2 ≤ v then (i, v) else b)

/-- Rust `iter().enumerate().max_by_key(|(_, z)| z.re)`: index of the
maximal element, the last one in case of ties. -/
def lastArgmax (l : List Int) : Nat :=
  (lamAux l 0 (0, l.getD 0 0)).1

/-- The centered 512-sample buffer built by the input loop of `xcorr`
(`buf[i].re = signal[i] - median`). -/
def bufC (signal : List Int) (m : Int) : List Int :=
  (List.range 512).map (fun i => signal.getD i 0 - m)

/-- Modelled from the spec: the exact circular cross-correlation that the
forward-transform / conjugate-multiply / inverse-transform pipeline
computes on the two centered buffers. -/
def corrOf (bufS bufR : List Int) : List Int :=
  (List.range 512).map (fun t : Nat =>
    ∑ i : ZMod 512, bufS.getD (i + (t : ZMod 512)).val 0 * bufR.getD i.val 0)

/-- Rust `xcorr`: center both signals, run the (spec-modelled) transform
pipeline — failing, like `fft_radix2_q15`, only on a non-power-of-two
buffer length — rotate the result so zero lag is the middle index, and
return the index of the maximal real bin offset back to a signed delay.
`none` models the `unwrap` panic on a transform failure. -/
def xcorr (signal : List Int) (signal_median : Int)
    (reference : List Int) (reference_median : Int) : Option Int :=
  let bufS := bufC signal signal_median
  let bufR := bufC reference reference_median
  if isPow2 bufS.length && isPow2 bufR.length then
    some ((lastArgmax (rotRight (corrOf bufS bufR) (512 / 2)) : Int) - (512 / 2 : Nat))
  else none

/-- C9: for correctly sized (512-sample) inputs the transform calls inside
`xcorr` never fail, so the `unwrap` branches are unreachable and `xcorr`
always produces a delay. -/
theorem xcorr_transform_never_fails (signal reference : List Int) (sm rm : Int)
    (hs : signal.length = 512) (hr : reference.length = 512) :
    (xcorr signal sm reference rm).isSome = true := by
  have hlen : ∀ (l : List Int) (m : Int), (bufC l m).length = 512 := by
    intro l m
    simp [bufC, List.length_map, List.length_range]
  rw [xcorr]
  simp only [hlen]
  rw [if_pos (by decide)]
  rfl

/-! ### Behaviour of the tie-breaking maximum scan -/

theorem lamAux_append :
    ∀ (a b : List Int) (i : Nat) (s : Nat × Int),
      lamAux (a ++ b) i s = lamAux b (i + a.length) (lamAux a i s)
  | [], _, _, _ => by simp [lamAux]
  | v :: rest, b, i, s => by
    show lamAux (rest ++ b) (i + 1) _ = _
    rw [lamAux_append rest b (i + 1) _]
    congr 1
    simp [List.length_cons]
    omega

theorem lamAux_all_lt :
    ∀ (l : List Int) (i : Nat) (s : Nat × Int),
      (∀ v ∈ l, v < s.2) → lamAux l i s = s
  | [], _, _, _ => rfl
  | v :: rest, i, s, h => by
    rw [lamAux, if_neg (not_le.mpr (h v (List.mem_cons_self v rest)))]
    exact lamAux_all_lt rest (i + 1) s (fun u hu => h u (List.mem_cons_of_mem _ hu))

theorem lamAux_snd_le (M : Int) :
    ∀ (l : List Int) (i : Nat) (s : Nat × Int),
      (∀ v ∈ l, v ≤ M) → s.2 ≤ M → (lamAux l i s).2 ≤ M
  | [], _, _, _, hs => hs
  | v :: rest, i, s, h, hs => by
    rw [lamAux]
    refine lamAux_snd_le M rest (i + 1) _ (fun u hu => h u (List.mem_cons_of_mem _ hu)) ?_
    by_cases hc : s.2 ≤ v
    · rw [if_pos hc]
      exact h v (List.mem_cons_self v rest)
    · rw [if_neg hc]
      exact hs

theorem lamAux_strict (a b' : List Int) (M : Int) (i0 : Nat) (s : Nat × Int)
    (ha : ∀ v ∈ a, v < M) (hb : ∀ v ∈ b', v < M) (hs : s.2 ≤ M) :
    lamAux (a ++ M :: b') i0 s = (i0 + a.length, M) := by
  rw [lamAux_append]
  have h1 : (lamAux a i0 s).2 ≤ M :=
    lamAux_snd_le M a i0 s (fun v hv => le_of_lt (ha v hv)) hs
  rw [lamAux, if_pos h1]
  exact lamAux_all_lt b' _ _ hb

/-- When one entry is strictly greater than all others, the tie-breaking
maximum scan returns precisely its index. -/
theorem lastArgmax_of_strict (l : List Int) (c : Nat) (hc : c < l.length)
    (hmax : ∀ n, n < l.length → n ≠ c → l.getD n 0 < l.getD c 0) :
    lastArgmax l = c := by
  have hdecomp : l = l.take c ++ l.getD c 0 :: l.drop (c + 1) := by
    rw [List.getD_eq_getElem l 0 hc, List.getElem_cons_drop l c hc, List.take_append_drop]
  have htake : ∀ v ∈ l.take c, v < l.getD c 0 := by
    intro v hv
    rcases List.mem_iff_getElem.mp hv with ⟨n, hn, rfl⟩
    have hn' : n < c := by
      have := hn
      rw [List.length_take] at this
      omega
    have hnl : n < l.length := lt_of_lt_of_le hn' (le_of_lt hc)
    rw [List.getElem_take, ← List.getD_eq_getElem l 0 hnl]
    exact hmax n hnl (by omega)
  have hdrop : ∀ v ∈ l.drop (c + 1), v < l.getD c 0 := by
    intro v hv
    rcases List.mem_iff_getElem.mp hv with ⟨n, hn, rfl⟩
    have hlen := hn
    rw [List.length_drop] at hlen
    have hnl : c + 1 + n < l.length := by omega
    rw [List.getElem_drop, ← List.getD_eq_getElem l 0 hnl]
    exact hmax (c + 1 + n) hnl (by omega)
  have hs0 : l.getD 0 0 ≤ l.getD c 0 := by
    rcases Nat.eq_zero_or_pos c with rfl | hcpos
    · exact le_refl _
    · exact le_of_lt (hmax 0 (by omega) (by omega))
  have key := lamAux_strict (l.take c) (l.drop (c + 1)) (l.getD c 0) 0
    (0, l.getD 0 0) htake hdrop hs0
  rw [← hdecomp] at key
  rw [lastArgmax, key]
  rw [List.length_take]
  omega

/-! ### Circular self-correlation is maximal at lag zero -/

/-- The median-centered signal viewed as a function on circular sample
indices. -/
def centered (signal : List Int) (m : Int) : ZMod 512 → Int :=
  fun i => signal.getD i.val 0 - m

theorem corr_self_lt (x : ZMod 512 → Int) (t : ZMod 512)
    (ht : ∃ i, x (i + t) ≠ x i) :
    (∑ i : ZMod 512, x (i + t) * x i) < ∑ i : ZMod 512, x i * x i := by
  have hsq : (∑ i : ZMod 512, x (i + t) * x (i + t)) = ∑ i : ZMod 512, x i * x i :=
    Fintype.sum_equiv (Equiv.addRight t) _ _ (fun i => rfl)
  have hpos : 0 < ∑ i : ZMod 512, (x (i + t) - x i) ^ 2 := by
    obtain ⟨i0, hi0⟩ := ht
    refine Finset.sum_pos' (fun i _ => sq_nonneg _) ⟨i0, Finset.mem_univ _, ?_⟩
    exact sq_pos_of_ne_zero (sub_ne_zero_of_ne hi0)
  have hexp : ∀ i : ZMod 512, (x (i + t) - x i) ^ 2
      = x (i + t) * x (i + t) - 2 * (x (i + t) * x i) + x i * x i := fun i => by ring
  rw [Finset.sum_congr rfl (fun i _ => hexp i), Finset.sum_add_distrib,
    Finset.sum_sub_distrib, ← Finset.mul_sum, hsq] at hpos
  linarith

theorem bufC_length (l : List Int) (m : Int) : (bufC l m).length = 512 := by
  simp [bufC]

theorem bufC_getD (s : List Int) (m : Int) (n : Nat) (hn : n < 512) :
    (bufC s m).getD n 0 = s.getD n 0 - m := by
  rw [bufC, List.getD_eq_getElem?_getD, List.getElem?_map, List.getElem?_range hn]
  rfl

theorem corrOf_entry (bS bR : List Int) (t : Nat) (ht : t < 512) :
    (corrOf bS bR).getD t 0
      = ∑ i : ZMod 512, bS.getD (i + (t : ZMod 512)).val 0 * bR.getD i.val 0 := by
  rw [corrOf, List.getD_eq_getElem?_getD, List.getElem?_map, List.getElem?_range ht]
  simp only [Option.map_some', Option.getD_some]

theorem xcorr_transform_never_fails_witness :
    (List.replicate 512 (0 : Int)).length = 512 ∧
      (xcorr (List.replicate 512 0) 0 (List.replicate 512 0) 0).isSome = true :=
  ⟨List.length_replicate 512 0,
    xcorr_transform_never_fails _ _ 0 0 (List.length_replicate 512 0)
      (List.length_replicate 512 0)⟩

/-! ### Self-correlation: counterexample and corrected statement -/

theorem getD_replicate_self : ∀ (n i : Nat) (c : Int), (List.replicate n c).getD i c = c
  | 0, _, _ => rfl
  | _ + 1, 0, _ => rfl
  | n + 1, i + 1, c => getD_replicate_self n i c

theorem map_const_eq_replicate (c : Int) :
    ∀ l : List Nat, l.map (fun _ => c) = List.replicate l.length c
  | [] => rfl
  | a :: t => by
    rw [List.map_cons, map_const_eq_replicate c t]
    rfl

theorem bufC_const_zero : bufC (List.replicate 512 0) 0 = List.replicate 512 0 := by
  rw [bufC,
    List.map_congr_left (g := fun _ : Nat => (0 : Int))
      (fun a _ => by rw [getD_replicate_self, sub_zero]),
    map_const_eq_replicate, List.length_range]

theorem corr_const_zero :
    corrOf (List.replicate 512 0) (List.replicate 512 0) = List.replicate 512 0 := by
  rw [corrOf,
    List.map_congr_left (g := fun _ : Nat => (0 : Int))
      (fun t _ => Finset.sum_eq_zero (fun i _ => by
        rw [getD_replicate_self, getD_replicate_self, zero_mul])),
    map_const_eq_replicate, List.length_range]

theorem lamAux_replicate (c : Int) :
    ∀ (n i : Nat) (s : Nat × Int), s.2 ≤ c →
      lamAux (List.replicate (n + 1) c) i s = (i + n, c)
  | 0, i, s, hs => by
    show lamAux [c] i s = (i + 0, c)
    rw [lamAux, if_pos hs]
    rfl
  | n + 1, i, s, hs => by
    show lamAux (c :: List.replicate (n + 1) c) i s = (i + (n + 1), c)
    rw [lamAux, if_pos hs, lamAux_replicate c n (i + 1) (i, c) (le_refl c)]
    congr 1
    omega

theorem lastArgmax_replicate (n : Nat) (c : Int) :
    lastArgmax (List.replicate (n + 1) c) = n := by
  have h0 : (List.replicate (n + 1) c).getD 0 0 = c := rfl
  rw [lastArgmax, h0, lamAux_replicate c n 0 (0, c) (le_refl c)]
  simp

theorem rotRight_replicate_zero :
    rotRight (List.replicate 512 (0 : Int)) 256 = List.replicate 512 0 := by
  rw [rotRight, List.length_replicate, List.drop_replicate, List.take_replicate]
  have h1 : (512 - 256 : Nat) = 256 := by norm_num
  rw [h1]
  have h2 : (256 : Nat) ⊓ 512 = 256 := by norm_num
  rw [h2, ← List.replicate_add]

/-- C7 counterexample: correlating the constant signal (all samples equal,
here zero, with its median zero) with an exact copy of itself does NOT
return delay 0: every correlation bin is equal, the tie-breaking maximum
scan picks the last bin (index 511), and the returned delay is 255. -/
theorem xcorr_self_constant_cex :
    xcorr (List.replicate 512 (0 : Int)) 0 (List.replicate 512 0) 0 = some 255 ∧
      (255 : Int) ≠ 0 := by
  constructor
  · rw [xcorr]
    simp only [bufC_length]
    rw [if_pos (by decide)]
    rw [bufC_const_zero, corr_const_zero]
    have h2 : (512 / 2 : Nat) = 256 := by norm_num
    rw [h2, rotRight_replicate_zero]
    have h511 : lastArgmax (List.replicate 512 (0 : Int)) = 511 :=
      lastArgmax_replicate 511 0
    rw [h511]
    decide
  · decide

/-- C7 amended: correlating a 512-sample signal (with its median) with an
exact copy of itself returns delay 0 provided the median-centered signal is
not invariant under any nonzero circular shift; for shift-invariant content
(e.g. a constant signal) every correlation bin ties and the scan returns
the last index instead. -/
theorem xcorr_self_delay_zero (signal : List Int) (m : Int)
    (hlen : signal.length = 512)
    (hshift : ∀ t : ZMod 512, t ≠ 0 →
      ∃ i : ZMod 512, centered signal m (i + t) ≠ centered signal m i) :
    xcorr signal m signal m = some 0 := by
  rw [xcorr]
  simp only [bufC_length]
  rw [if_pos (by decide)]
  have h2 : (512 / 2 : Nat) = 256 := by norm_num
  rw [h2]
  set b := bufC signal m with hb
  set corr := corrOf b b with hcorr
  set rot := rotRight corr 256 with hrotdef
  have hclen : corr.length = 512 := by
    rw [hcorr, corrOf]
    simp
  have hbgetD : ∀ i : ZMod 512, b.getD i.val 0 = centered signal m i := fun i => by
    rw [hb, bufC_getD signal m i.val (ZMod.val_lt i)]
    rfl
  have hcgetD : ∀ t : Nat, t < 512 →
      corr.getD t 0 = ∑ i : ZMod 512,
        centered signal m (i + (t : ZMod 512)) * centered signal m i := by
    intro t ht
    rw [hcorr, corrOf_entry b b t ht]
    refine Finset.sum_congr rfl (fun i _ => ?_)
    rw [hbgetD i, hbgetD (i + (t : ZMod 512))]
  have hrlen : rot.length = 512 := by
    rw [hrotdef, rotRight, hclen]
    simp [List.length_append, List.length_drop, List.length_take, hclen]
  have hrget : ∀ n : Nat, n < 512 → rot.getD n 0 = corr.getD ((n + 256) % 512) 0 := by
    intro n hn
    rw [hrotdef, rotRight, hclen]
    have h56 : (512 - 256 : Nat) = 256 := by norm_num
    rw [h56, List.getD_eq_getElem?_getD, List.getElem?_append]
    by_cases hn' : n < 256
    · rw [if_pos (by simp [List.length_drop, hclen]; omega), List.getElem?_drop]
      have hidx : (n + 256) % 512 = 256 + n := by omega
      rw [hidx, List.getD_eq_getElem?_getD]
    · rw [if_neg (by simp [List.length_drop, hclen]; omega), List.getElem?_take]
      have hdl : (List.drop 256 corr).length = 256 := by simp [List.length_drop, hclen]
      rw [hdl]
      rw [if_pos (by omega)]
      have hidx : (n + 256) % 512 = n - 256 := by omega
      rw [hidx, List.getD_eq_getElem?_getD]
  have hcenter : rot.getD 256 0
      = ∑ i : ZMod 512, centered signal m i * centered signal m i := by
    rw [hrget 256 (by omega)]
    have h0 : (256 + 256) % 512 = 0 := by norm_num
    rw [h0, hcgetD 0 (by omega)]
    refine Finset.sum_congr rfl (fun i _ => ?_)
    norm_num
  have hstrict : ∀ n, n < 512 → n ≠ 256 → rot.getD n 0 < rot.getD 256 0 := by
    intro n hn hne
    have ht'lt : (n + 256) % 512 < 512 := by omega
    have ht'ne : (n + 256) % 512 ≠ 0 := by omega
    rw [hcenter, hrget n hn, hcgetD _ ht'lt]
    have hcast_ne : (((n + 256) % 512 : Nat) : ZMod 512) ≠ 0 := by
      intro hzz
      have hv := congrArg ZMod.val hzz
      rw [ZMod.val_cast_of_lt ht'lt, ZMod.val_zero] at hv
      exact ht'ne hv
    exact corr_self_lt (centered signal m) _ (hshift _ hcast_ne)
  have hargmax : lastArgmax rot = 256 :=
    lastArgmax_of_strict rot 256 (by omega) (fun n hn hne => hstrict n (by omega) hne)
  rw [hargmax]
  decide

theorem xcorr_self_delay_zero_witness :
    ((1 : Int) :: List.replicate 511 0).length = 512 ∧
      xcorr ((1 : Int) :: List.replicate 511 0) 0
        ((1 : Int) :: List.replicate 511 0) 0 = some 0 := by
  refine ⟨by rw [List.length_cons, List.length_replicate], ?_⟩
  refine xcorr_self_delay_zero _ 0 (by rw [List.length_cons, List.length_replicate]) ?_
  intro t ht
  refine ⟨-t, ?_⟩
  have hzero : centered ((1 : Int) :: List.replicate 511 0) 0 (-t + t) = 1 := by
    rw [neg_add_cancel]
    rfl
  have hval : (-t).val ≠ 0 := by
    intro hv
    exact ht (by simpa using (ZMod.val_eq_zero (-t)).mp hv)
  have hnon : centered ((1 : Int) :: List.replicate 511 0) 0 (-t) = 0 := by
    rw [centered]
    rcases hn : (-t).val with _ | n'
    · exact absurd hn hval
    · show ((1 : Int) :: List.replicate 511 0).getD (n' + 1) 0 - 0 = 0
      show (List.replicate 511 (0 : Int)).getD n' 0 - 0 = 0
      rw [getD_replicate_self, sub_zero]
  rw [hzero, hnon]
  decide

/-! ### The parser (`Parser` in `src/parser.rs`) -/

/-- Keycode mapping of the four hit spots (`HitMapping` in `src/cfg.rs`,
keycodes as numbers). -/
structure HitMapping where
  left_kat : Nat
  left_don : Nat
  right_don : Nat
  right_kat : Nat
deriving Repr, DecidableEq

/-- Signal processing configuration (`SignalParsingConfiguration`). -/
structure SignalParsingConfiguration where
  sensitivity : Nat
  sharpness : Nat
deriving Repr, DecidableEq

/-- Drum configuration (`DrumConfig`). -/
structure DrumConfig where
  hit_mapping : HitMapping
  parse_cfg : SignalParsingConfiguration
deriving Repr, DecidableEq

def MID_RANGE : Int := 4096 / 2

def WINDOW_SIZE : Nat := 256

/-- Sample parser state: four sliding windows and four hit-state booleans. -/
structure Parser where
  windows : List SampleWindow
  states : List Bool
deriving Repr, DecidableEq

/-- `Parser::default`. -/
def Parser.default : Parser :=
  { windows := List.replicate 4 (SampleWindow.new WINDOW_SIZE 0)
    states := List.replicate 4 false }

/-- The Rust `s as i16` cast of a `u16` raw reading. -/
def u16_as_i16 (s : Nat) : Int :=
  if s % 65536 < 32768 then (s % 65536 : Int) else (s % 65536 : Int) - 65536

/-- One channel of the first stage of `Parser::parse`: store the centered
sample into the channel's window; when the write cursor has just wrapped to
zero, run the deviation check and update the channel state.  Returns the
new window, the new channel state, this channel's state-change flag, and
this channel's second-stage flag (`none` models a `store` panic). -/
def stage1Chan (sharp sens : Nat) (w : SampleWindow) (s : Nat) (b : Bool) :
    Option (SampleWindow × Bool × Bool × Bool) :=
  (SampleWindow.store WINDOW_SIZE w (u16_as_i16 s - MID_RANGE)).map (fun w' =>
    if w'.index_fifo == 0 then
      if check_deviation (w'.threshold WINDOW_SIZE) w'.min w'.max sharp sens then
        if b != true then (w', true, true, true)
        else (w', b, false, false)
      else (w', false, true, false)
    else (w', b, false, false))

/-- Inner loop of the pairwise cross-correlation pass (`for j in (i+1)..4`):
for each remaining channel `j` still flagged, consult the delay estimate
and clear the reference channel on a negative delay, channel `j` otherwise.
`d i j` abstracts the `xcorr` call for the pair; a `none` delay models the
panic of a failed correlation. -/
def innerLoop (d : Nat → Nat → Option Int) (i : Nat) :
    List Nat → List Bool → Option (List Bool)
  | [], states => some states
  | j :: rest, states =>
    if states.getD j false then
      match d i j with
      | none => none
      | some delay =>
        if delay < 0 then innerLoop d i rest (states.set i false)
        else innerLoop d i rest (states.set j false)
    else innerLoop d i rest states

/-- Outer loop of the pairwise cross-correlation pass (`for i in 0..4`). -/
def outerLoop (d : Nat → Nat → Option Int) :
    List Nat → List Bool → Option (List Bool)
  | [], states => some states
  | i :: rest, states =>
    if states.getD i false then
      (innerLoop d i ((List.range 4).drop (i + 1)) states).bind (outerLoop d rest)
    else outerLoop d rest states

/-- The whole second-stage disambiguation pass of `Parser::parse`. -/
def secondStage (d : Nat → Nat → Option Int) (states : List Bool) :
    Option (List Bool) :=
  outerLoop d (List.range 4) states

/-- `Parser::current`: the currently hit channels mapped to their keycodes. -/
def currentReport (hm : HitMapping) (states : List Bool) : List Nat :=
  (states.zip [hm.left_kat, hm.left_don, hm.right_don, hm.right_kat]).filterMap
    (fun bk => if bk.1 then some bk.2 else none)

/-- `Parser::parse`: store all four samples, evaluate the deviation checks
at the detection cadence, disambiguate simultaneous hits through the
cross-correlation oracle `xc` (instantiated with `xcorr`), and return a HID
report exactly when the state-change flag was set.  `none` models a panic
of a store or of a correlation call. -/
def Parser.parse (xc : List Int → Int → List Int → Int → Option Int)
    (cfg : DrumConfig) (p : Parser) (sample : List Nat) :
    Option (Parser × Option (List Nat)) := do
  let sharp := cfg.parse_cfg.sharpness
  let sens := cfg.parse_cfg.sensitivity
  let w := SampleWindow.new WINDOW_SIZE 0
  let (w0, b0, c0, e0) ← stage1Chan sharp sens (p.windows.getD 0 w)
    (sample.getD 0 0) (p.states.getD 0 false)
  let (w1, b1, c1, e1) ← stage1Chan sharp sens (p.windows.getD 1 w)
    (sample.getD 1 0) (p.states.getD 1 false)
  let (w2, b2, c2, e2) ← stage1Chan sharp sens (p.windows.getD 2 w)
    (sample.getD 2 0) (p.states.getD 2 false)
  let (w3, b3, c3, e3) ← stage1Chan sharp sens (p.windows.getD 3 w)
    (sample.getD 3 0) (p.states.getD 3 false)
  let state_change := c0 || c1 || c2 || c3
  let second_stage := e0 || e1 || e2 || e3
  let windows := [w0, w1, w2, w3]
  let states := [b0, b1, b2, b3]
  let states ←
    if second_stage then
      secondStage (fun i j =>
        xc (windows.getD j w).fifo ((windows.getD j w).threshold WINDOW_SIZE)
          (windows.getD i w).fifo ((windows.getD i w).threshold WINDOW_SIZE)) states
    else some states
  let p' : Parser := { windows := windows, states := states }
  if state_change then
    return (p', some (currentReport cfg.hit_mapping states))
  else
    return (p', none)

/-! ### Claims about the second-stage disambiguation -/

/-- C3 counterexample, refuting both falsified conjuncts of the original
claim.  First, with estimated delay 0 (inside any tie-break band) two
flagged channels do NOT both stay flagged: the pass clears the second
channel of the pair — there is no tie-break band in the code.  Second, a
cleared channel IS still considered in subsequent pairs of the same pass:
with channels 0, 1, 2 flagged and delays `d 0 1 < 0 ≤ d 0 2`, the pair
(0,1) clears the reference channel 0, yet the pair (0,2) is still examined
against the already-cleared channel 0 and clears channel 2 as well. -/
theorem second_stage_decision_cex :
    (secondStage (fun _ _ => some 0) [true, true, false, false]
        = some [true, false, false, false] ∧
      [true, false, false, false] ≠ [true, true, false, false]) ∧
    (secondStage (fun _ j => some (if j = 1 then (-1 : Int) else 0))
        [true, true, true, false]
      = some [false, true, false, false]) := by
  refine ⟨⟨rfl, by decide⟩, rfl⟩

/-- One outer iteration of the disambiguation pass, in the declarative
wording of the amended claim: when channel `i` was flagged at the start of
its iteration, every pair `(i, j)` with `j` still flagged when reached
clears exactly one flag — channel `i` on a negative delay, channel `j`
otherwise (including delay 0).  The `states.getD i` guard is evaluated once
at iteration entry, so a reference channel cleared mid-iteration continues
to be used for its remaining pairs; the `st.getD j` guard is evaluated per
pair, so a channel cleared as the second member is skipped later. -/
def rowModel (d : Nat → Nat → Int) (i : Nat) (states : List Bool) : List Bool :=
  if states.getD i false then
    ((List.range 4).drop (i + 1)).foldl (fun st j =>
      if st.getD j false then
        if d i j < 0 then st.set i false else st.set j false
      else st) states
  else states

/-- The whole disambiguation pass in the declarative wording of the amended
claim: the ordered pairs `(i, j)`, `i < j`, examined in lexicographic
order. -/
def secondStageModel (d : Nat → Nat → Int) (states : List Bool) : List Bool :=
  (List.range 4).foldl (fun st i => rowModel d i st) states

theorem innerLoop_eq_foldl (d : Nat → Nat → Int) (i : Nat) :
    ∀ (js : List Nat) (states : List Bool),
      innerLoop (fun a b => some (d a b)) i js states
        = some (js.foldl (fun st j =>
            if st.getD j false then
              if d i j < 0 then st.set i false else st.set j false
            else st) states)
  | [], _ => rfl
  | j :: rest, states => by
    simp only [innerLoop, List.foldl_cons]
    by_cases hj : states.getD j false = true
    · rw [if_pos hj, if_pos hj]
      by_cases hd : d i j < 0
      · rw [if_pos hd, if_pos hd]
        exact innerLoop_eq_foldl d i rest _
      · rw [if_neg hd, if_neg hd]
        exact innerLoop_eq_foldl d i rest _
    · rw [if_neg hj, if_neg hj]
      exact innerLoop_eq_foldl d i rest states

theorem outerLoop_eq_foldl (d : Nat → Nat → Int) :
    ∀ (rows : List Nat) (states : List Bool),
      outerLoop (fun a b => some (d a b)) rows states
        = some (rows.foldl (fun st i => rowModel d i st) states)
  | [], _ => rfl
  | i :: rest, states => by
    simp only [outerLoop, List.foldl_cons, rowModel]
    by_cases hi : states.getD i false = true
    · rw [if_pos hi, if_pos hi, innerLoop_eq_foldl d i _ states, Option.some_bind]
      exact outerLoop_eq_foldl d rest _
    · rw [if_neg hi, if_neg hi]
      exact outerLoop_eq_foldl d rest states

/-- C3 amended: for every delay oracle and every initial state vector, the
second-stage pass examines the ordered pairs `(i, j)`, `i < j`, in
lexicographic order; a pair is examined iff channel `i` was flagged when
its outer iteration began and channel `j` is flagged at that moment; an
examined pair always clears exactly one flag — channel `i` when the
estimated delay is negative, channel `j` otherwise (including delay 0:
there is no tie-break band) — and a channel cleared as the second member of
a pair is skipped in later pairs, while a reference channel cleared
mid-iteration continues to be used for the remaining pairs of its
iteration.  Formally: the pass always completes and equals the declarative
model stating exactly that wording. -/
theorem second_stage_examined_pairs (d : Nat → Nat → Int) (states : List Bool) :
    secondStage (fun a b => some (d a b)) states
      = some (secondStageModel d states) :=
  outerLoop_eq_foldl d (List.range 4) states

theorem second_stage_examined_pairs_witness :
    secondStage (fun _ _ => some (5 : Int)) [true, true, false, true]
      = some (secondStageModel (fun _ _ => (5 : Int)) [true, true, false, true]) :=
  second_stage_examined_pairs (fun _ _ => (5 : Int)) [true, true, false, true]

/-! ### A quiet run of the parser: reports without a state change -/

theorem set_replicate (c : Int) :
    ∀ (n i : Nat), (List.replicate n c).set i c = List.replicate n c
  | 0, _ => rfl
  | _ + 1, 0 => rfl
  | n + 1, i + 1 => congrArg (List.cons c) (set_replicate c n i)

theorem eraseIdx_replicate (c : Int) :
    ∀ (n i : Nat), i < n → (List.replicate n c).eraseIdx i = List.replicate (n - 1) c
  | n + 1, 0, _ => rfl
  | n + 1, i + 1, h => by
    show c :: (List.replicate n c).eraseIdx i = List.replicate (n + 1 - 1) c
    rw [eraseIdx_replicate c n i (by omega)]
    cases n with
    | zero => omega
    | succ m => rfl

theorem insertIdx_replicate (c : Int) :
    ∀ (n j : Nat), j ≤ n → (List.replicate n c).insertIdx j c = List.replicate (n + 1) c
  | _, 0, _ => rfl
  | 0, j + 1, h => absurd h (by omega)
  | n + 1, j + 1, h => by
    show c :: (List.replicate n c).insertIdx j c = List.replicate (n + 2) c
    rw [insertIdx_replicate c n j (by omega)]
    rfl

/-- Storing the neutral value into the all-neutral window keeps the window
all-neutral and advances the cursor. -/
theorem store_zero_uniform (idx : Nat) (hidx : idx < 256) :
    SampleWindow.store 256 ⟨List.replicate 256 0, List.replicate 256 0, idx⟩ 0
      = some ⟨List.replicate 256 0, List.replicate 256 0, (idx + 1) % 256⟩ := by
  have hwf : SampleWindow.WF 256 ⟨List.replicate 256 0, List.replicate 256 0, idx⟩ :=
    ⟨List.length_replicate 256 0, hidx, List.Perm.refl _, is_sortedB_replicate 256 0⟩
  obtain ⟨i, w', hI, hst, hfifo, hix, hseq, hsperm, hwf'⟩ :=
    store_spec 256 8 (by norm_num) _ 0 hwf
  rw [hst]
  congr 1
  obtain ⟨hi_lt, hi_eq⟩ := binarySearch_ok hI
  have hi256 : i < 256 := by simpa using hi_lt
  have herase : (List.replicate 256 (0 : Int)).eraseIdx i = List.replicate 255 0 :=
    eraseIdx_replicate 0 256 i hi256
  have hseq' : w'.sorted = ((List.replicate 256 (0 : Int)).eraseIdx i).insertIdx
      (searchIdx ((List.replicate 256 (0 : Int)).eraseIdx i) 0) 0 := hseq
  have hsorted' : w'.sorted = List.replicate 256 0 := by
    rw [hseq', herase]
    obtain ⟨hj_le, _, _⟩ := searchIdx_spec (l := List.replicate 255 0) (x := 0)
      ((is_sortedB_iff_pairwise _).mp (is_sortedB_replicate 255 0))
    rw [insertIdx_replicate 0 255 _ (by simpa using hj_le)]
  have hfifo2 : w'.fifo = (List.replicate 256 (0 : Int)).set idx 0 := hfifo
  have hfifo' : w'.fifo = List.replicate 256 0 := by
    rw [hfifo2, set_replicate 0 256 idx]
  have hix' : w'.index_fifo = (idx + 1) % 256 := hix
  calc w' = ⟨w'.sorted, w'.fifo, w'.index_fifo⟩ := rfl
    _ = ⟨List.replicate 256 0, List.replicate 256 0, (idx + 1) % 256⟩ := by
        rw [hsorted', hfifo', hix']

theorem check_deviation_quiet : check_deviation 0 0 0 64 50 = false := by
  rw [check_deviation]
  norm_num [relative_deviation]

theorem stage1Chan_quiet (idx : Nat) (hidx : idx < 256) :
    stage1Chan 64 50 ⟨List.replicate 256 0, List.replicate 256 0, idx⟩ 2048 false
      = some (⟨List.replicate 256 0, List.replicate 256 0, (idx + 1) % 256⟩,
          false, ((idx + 1) % 256 == 0 : Bool), false) := by
  have hv : u16_as_i16 2048 - MID_RANGE = 0 := by norm_num [u16_as_i16, MID_RANGE]
  rw [stage1Chan, hv]
  simp only [WINDOW_SIZE]
  rw [store_zero_uniform idx hidx]
  simp only [Option.map_some']
  have ht : SampleWindow.threshold 256
      ⟨List.replicate 256 0, List.replicate 256 0, (idx + 1) % 256⟩ = 0 :=
    getD_replicate_self 256 128 0
  have hmin : SampleWindow.min
      ⟨List.replicate 256 0, List.replicate 256 0, (idx + 1) % 256⟩ = 0 :=
    getD_replicate_self 256 0 0
  have hmax : SampleWindow.max
      ⟨List.replicate 256 0, List.replicate 256 0, (idx + 1) % 256⟩ = 0 :=
    getD_replicate_self 256 255 0
  simp only [ht, hmin, hmax, check_deviation_quiet]
  by_cases h : (idx + 1) % 256 = 0
  · simp [h]
  · simp [h]

/-- The uniform quiet parser state: four all-neutral windows at write cursor
`idx`, no channel hit. -/
def pQuiet (idx : Nat) : Parser :=
  { windows := [⟨List.replicate 256 0, List.replicate 256 0, idx⟩,
      ⟨List.replicate 256 0, List.replicate 256 0, idx⟩,
      ⟨List.replicate 256 0, List.replicate 256 0, idx⟩,
      ⟨List.replicate 256 0, List.replicate 256 0, idx⟩]
    states := [false, false, false, false] }

/-- The sample whose centered value is the neutral 0 on all four channels. -/
def quietSample : List Nat := [2048, 2048, 2048, 2048]

/-- A fixed configuration: sensitivity 50, sharpness 64, arbitrary keymap. -/
def cfg0 : DrumConfig :=
  { hit_mapping := { left_kat := 29, left_don := 27, right_don := 6, right_kat := 25 }
    parse_cfg := { sensitivity := 50, sharpness := 64 } }

theorem parse_quiet (idx : Nat) (hidx : idx < 256) :
    Parser.parse xcorr cfg0 (pQuiet idx) quietSample
      = some (pQuiet ((idx + 1) % 256),
          if (idx + 1) % 256 = 0 then some [] else none) := by
  have hstep := stage1Chan_quiet idx hidx
  rw [Parser.parse]
  simp only [pQuiet, quietSample, cfg0, WINDOW_SIZE,
    List.getD_cons_zero, List.getD_cons_succ]
  rw [hstep]
  simp only [Option.some_bind, Option.bind_eq_bind]
  by_cases h : (idx + 1) % 256 = 0
  · simp [h, currentReport, pQuiet]
  · simp [h, pQuiet]

/-- A run of `parse` calls on the freshly constructed parser, all fed the
neutral sample: accumulates the parser state, the ordered list of emitted
reports, and whether the hit state ever changed between two consecutive
calls. -/
def runQuiet : Nat → Option (Parser × List (List Nat) × Bool)
  | 0 => some (Parser.default, [], false)
  | n + 1 => (runQuiet n).bind (fun st =>
      (Parser.parse xcorr cfg0 st.1 quietSample).map (fun pr =>
        (pr.1,
          st.2.1 ++ (match pr.2 with | some r => [r] | none => []),
          st.2.2 || decide (pr.1.states ≠ st.1.states))))

theorem runQuiet_spec : ∀ n : Nat,
    runQuiet n = some (pQuiet (n % 256), List.replicate (n / 256) [], false)
  | 0 => rfl
  | n + 1 => by
    rw [runQuiet, runQuiet_spec n, Option.some_bind,
      parse_quiet (n % 256) (Nat.mod_lt _ (by omega))]
    simp only [Option.map_some']
    have hmod : (n % 256 + 1) % 256 = (n + 1) % 256 := by omega
    rw [hmod]
    by_cases h : (n + 1) % 256 = 0
    · have hdiv : (n + 1) / 256 = n / 256 + 1 := by omega
      have happ : List.replicate (n / 256) ([] : List Nat) ++ [[]]
          = List.replicate (n / 256 + 1) [] := by
        rw [List.replicate_succ']
      simp [h, hdiv, pQuiet, happ]
    · have hdiv : (n + 1) / 256 = n / 256 := by omega
      simp [h, hdiv, pQuiet]

/-- C2 counterexample: 512 parse calls on the fresh parser, all fed the
neutral (quiet) sample.  The per-channel hit state never changes between
any two consecutive calls (third component `false`), yet TWO reports are
emitted (at the two cursor wraps) — so a report is returned while the
overall hit state equals the state as of the last returned report,
contradicting "when the state is unchanged, parse returns None". -/
theorem parse_emits_without_state_change_cex :
    runQuiet 512 = some (pQuiet 0, [[], []], false) := by
  rw [runQuiet_spec 512]
  norm_num
  rfl

/-- Per-channel emission condition: the store succeeded, the write cursor
wrapped to zero, and the channel was either newly hit (deviation check true
on a previously quiet channel) or evaluated quiet (deviation check false,
which the code flags as a change unconditionally). -/
def chanCond (sharp sens : Nat) (w : SampleWindow) (s : Nat) (b : Bool) : Option Bool :=
  (SampleWindow.store WINDOW_SIZE w (u16_as_i16 s - MID_RANGE)).map (fun w' =>
    w'.index_fifo == 0 &&
      (if check_deviation (w'.threshold WINDOW_SIZE) w'.min w'.max sharp sens
        then !b else true))

theorem stage1Chan_changed (sharp sens : Nat) (w : SampleWindow) (s : Nat) (b : Bool)
    {r : SampleWindow × Bool × Bool × Bool}
    (h : stage1Chan sharp sens w s b = some r) :
    chanCond sharp sens w s b = some r.2.2.1 := by
  rw [stage1Chan] at h
  rw [chanCond]
  cases hst : SampleWindow.store WINDOW_SIZE w (u16_as_i16 s - MID_RANGE) with
  | none =>
    rw [hst] at h
    cases h
  | some w' =>
    rw [hst] at h
    simp only [Option.map_some', Option.some.injEq] at h
    subst h
    simp only [Option.map_some', Option.some.injEq]
    by_cases h0 : (w'.index_fifo == 0) = true
    · by_cases hc : check_deviation (w'.threshold WINDOW_SIZE) w'.min w'.max sharp sens
        = true
      · by_cases hb : b = true
        · simp [h0, hc, hb]
        · simp [h0, hc, hb]
      · simp [h0, hc]
    · simp [h0]

/-- C2 amended: whenever `parse` completes, a report is returned exactly
when some channel's per-call condition fires: its window cursor wrapped to
zero after the store and the channel either newly became hit or was
evaluated quiet — emission does NOT compare against the previously
reported state, so a report can repeat it. -/
theorem parse_emission_characterization
    (xc : List Int → Int → List Int → Int → Option Int) (cfg : DrumConfig)
    (p : Parser) (sample : List Nat) (p' : Parser) (rep : Option (List Nat))
    (h : Parser.parse xc cfg p sample = some (p', rep)) :
    ∃ c0 c1 c2 c3 : Bool,
      chanCond cfg.parse_cfg.sharpness cfg.parse_cfg.sensitivity
        (p.windows.getD 0 (SampleWindow.new WINDOW_SIZE 0)) (sample.getD 0 0)
        (p.states.getD 0 false) = some c0 ∧
      chanCond cfg.parse_cfg.sharpness cfg.parse_cfg.sensitivity
        (p.windows.getD 1 (SampleWindow.new WINDOW_SIZE 0)) (sample.getD 1 0)
        (p.states.getD 1 false) = some c1 ∧
      chanCond cfg.parse_cfg.sharpness cfg.parse_cfg.sensitivity
        (p.windows.getD 2 (SampleWindow.new WINDOW_SIZE 0)) (sample.getD 2 0)
        (p.states.getD 2 false) = some c2 ∧
      chanCond cfg.parse_cfg.sharpness cfg.parse_cfg.sensitivity
        (p.windows.getD 3 (SampleWindow.new WINDOW_SIZE 0)) (sample.getD 3 0)
        (p.states.getD 3 false) = some c3 ∧
      rep.isSome = (c0 || c1 || c2 || c3) := by
  rw [Parser.parse] at h
  cases h0 : stage1Chan cfg.parse_cfg.sharpness cfg.parse_cfg.sensitivity
      (p.windows.getD 0 (SampleWindow.new WINDOW_SIZE 0)) (sample.getD 0 0)
      (p.states.getD 0 false) with
  | none => rw [h0] at h; cases h
  | some r0 =>
  cases h1 : stage1Chan cfg.parse_cfg.sharpness cfg.parse_cfg.sensitivity
      (p.windows.getD 1 (SampleWindow.new WINDOW_SIZE 0)) (sample.getD 1 0)
      (p.states.getD 1 false) with
  | none => rw [h0, h1] at h; obtain ⟨w0, b0, c0, e0⟩ := r0; cases h
  | some r1 =>
  cases h2 : stage1Chan cfg.parse_cfg.sharpness cfg.parse_cfg.sensitivity
      (p.windows.getD 2 (SampleWindow.new WINDOW_SIZE 0)) (sample.getD 2 0)
      (p.states.getD 2 false) with
  | none =>
    rw [h0, h1, h2] at h
    obtain ⟨w0, b0, c0, e0⟩ := r0
    obtain ⟨w1, b1, c1, e1⟩ := r1
    cases h
  | some r2 =>
  cases h3 : stage1Chan cfg.parse_cfg.sharpness cfg.parse_cfg.sensitivity
      (p.windows.getD 3 (SampleWindow.new WINDOW_SIZE 0)) (sample.getD 3 0)
      (p.states.getD 3 false) with
  | none =>
    rw [h0, h1, h2, h3] at h
    obtain ⟨w0, b0, c0, e0⟩ := r0
    obtain ⟨w1, b1, c1, e1⟩ := r1
    obtain ⟨w2, b2, c2, e2⟩ := r2
    cases h
  | some r3 =>
  obtain ⟨w0, b0, c0, e0⟩ := r0
  obtain ⟨w1, b1, c1, e1⟩ := r1
  obtain ⟨w2, b2, c2, e2⟩ := r2
  obtain ⟨w3, b3, c3, e3⟩ := r3
  refine ⟨c0, c1, c2, c3,
    stage1Chan_changed _ _ _ _ _ h0, stage1Chan_changed _ _ _ _ _ h1,
    stage1Chan_changed _ _ _ _ _ h2, stage1Chan_changed _ _ _ _ _ h3, ?_⟩
  rw [h0, h1, h2, h3] at h
  simp only [Option.pure_def, Option.bind_eq_bind, Option.some_bind] at h
  by_cases hse : (e0 || e1 || e2 || e3) = true
  · rw [if_pos hse, Option.bind_eq_some] at h
    obtain ⟨sts, hsts, h⟩ := h
    by_cases hsc : (c0 || c1 || c2 || c3) = true
    · rw [if_pos hsc] at h
      simp only [Option.some.injEq, Prod.mk.injEq] at h
      rw [← h.2, hsc]
      rfl
    · rw [if_neg hsc] at h
      simp only [Option.some.injEq, Prod.mk.injEq] at h
      rw [← h.2]
      simp only [Bool.not_eq_true] at hsc
      rw [hsc]
      rfl
  · rw [if_neg hse] at h
    by_cases hsc : (c0 || c1 || c2 || c3) = true
    · rw [if_pos hsc] at h
      simp only [Option.some.injEq, Prod.mk.injEq] at h
      rw [← h.2, hsc]
      rfl
    · rw [if_neg hsc] at h
      simp only [Option.some.injEq, Prod.mk.injEq] at h
      rw [← h.2]
      simp only [Bool.not_eq_true] at hsc
      rw [hsc]
      rfl

theorem parse_emission_characterization_witness :
    ∃ c0 c1 c2 c3 : Bool,
      chanCond cfg0.parse_cfg.sharpness cfg0.parse_cfg.sensitivity
        ((pQuiet 255).windows.getD 0 (SampleWindow.new WINDOW_SIZE 0))
        (quietSample.getD 0 0) ((pQuiet 255).states.getD 0 false) = some c0 ∧
      chanCond cfg0.parse_cfg.sharpness cfg0.parse_cfg.sensitivity
        ((pQuiet 255).windows.getD 1 (SampleWindow.new WINDOW_SIZE 0))
        (quietSample.getD 1 0) ((pQuiet 255).states.getD 1 false) = some c1 ∧
      chanCond cfg0.parse_cfg.sharpness cfg0.parse_cfg.sensitivity
        ((pQuiet 255).windows.getD 2 (SampleWindow.new WINDOW_SIZE 0))
        (quietSample.getD 2 0) ((pQuiet 255).states.getD 2 false) = some c2 ∧
      chanCond cfg0.parse_cfg.sharpness cfg0.parse_cfg.sensitivity
        ((pQuiet 255).windows.getD 3 (SampleWindow.new WINDOW_SIZE 0))
        (quietSample.getD 3 0) ((pQuiet 255).states.getD 3 false) = some c3 ∧
      (some [] : Option (List Nat)).isSome = (c0 || c1 || c2 || c3) :=
  parse_emission_characterization xcorr cfg0 (pQuiet 255) quietSample (pQuiet 0)
    (some []) (by rw [parse_quiet 255 (by norm_num)]; norm_num)

/-! ### Sample delivery and back-pressure (`PiezoSensorHandler::send` in
`src/piezo.rs`) -/

/-- Warnings logged by the sensor handler. -/
inductive LogEvent where
  | adcNotReady
  | noReceiver
  | queueFull
deriving Repr, DecidableEq

/-- Communication queue capacity (`PIEZO_SENSOR_QUEUE_CAPACITY`). -/
def PIEZO_SENSOR_QUEUE_CAPACITY : Nat := 32

/-- Error cases of the channel send (`rtic_sync::channel::TrySendError`). -/
inductive TrySendError where
  | noReceiver
  | full
deriving Repr, DecidableEq

/-- Modelled from the spec: the bounded single-producer/single-consumer
queue of the external `rtic_sync` crate — `try_send` fails with
`NoReceiver` when no live consumer exists, fails with `Full` when the queue
already holds its full capacity, and otherwise appends the sample in FIFO
order. -/
def try_send (alive : Bool) (q : List (List Nat)) (x : List Nat) :
    Except TrySendError (List (List Nat)) :=
  if !alive then .error .noReceiver
  else if PIEZO_SENSOR_QUEUE_CAPACITY ≤ q.length then .error .full
  else .ok (q ++ [x])

/-- State touched by `PiezoSensorHandler::send`: the queue, the liveness of
the receiving task, the NVIC mask of the `ADC1_2` interrupt, the ADC
end-of-conversion flag, the current conversion registers and the log. -/
structure PiezoHandlerState where
  queue : List (List Nat)
  receiverAlive : Bool
  adc12Enabled : Bool
  jeocReady : Bool
  adcReading : List Nat
  logWarns : List LogEvent
deriving Repr, DecidableEq

/-- `PiezoSensorHandler::send`: skip (with a log) when the conversion has
not ended; otherwise try to push the fresh reading — on `NoReceiver` drop
and log, on `Full` drop, log and mask the `ADC1_2` interrupt
(back-pressure). -/
def send (st : PiezoHandlerState) : PiezoHandlerState :=
  if !st.jeocReady then
    { st with logWarns := st.logWarns ++ [LogEvent.adcNotReady] }
  else
    match try_send st.receiverAlive st.queue st.adcReading with
    | .ok q' => { st with queue := q' }
    | .error .noReceiver => { st with logWarns := st.logWarns ++ [LogEvent.noReceiver] }
    | .error .full =>
      { st with logWarns := st.logWarns ++ [LogEvent.queueFull], adc12Enabled := false }

/-- Consumer side (the `Parser` task of `src/lib.rs`): receive the front
sample, then unmask the `ADC1_2` interrupt (`int_enable!(ADC1_2)`),
signalling capacity back to the producer. -/
def recvOne (st : PiezoHandlerState) : Option (List Nat × PiezoHandlerState) :=
  match st.queue with
  | [] => none
  | x :: rest => some (x, { st with queue := rest, adc12Enabled := true })

/-- C6: with a completed conversion, (a) a full queue (32 samples) with a
live consumer drops the new sample, logs it, and masks the `ADC1_2`
interrupt; (b) without a live consumer the sample is dropped and logged but
the interrupt mask is untouched, so production continues; (c) `send` never
re-enables the interrupt — only the consumer's receive does. -/
theorem send_backpressure_policy (st : PiezoHandlerState)
    (hready : st.jeocReady = true) :
    (st.receiverAlive = true → st.queue.length = PIEZO_SENSOR_QUEUE_CAPACITY →
      send st
        = { st with adc12Enabled := false, logWarns := st.logWarns ++ [LogEvent.queueFull] }) ∧
    (st.receiverAlive = false →
      send st = { st with logWarns := st.logWarns ++ [LogEvent.noReceiver] }) ∧
    ((send st).adc12Enabled = true → st.adc12Enabled = true) ∧
    (∀ x st', recvOne st = some (x, st') → st'.adc12Enabled = true) := by
  refine ⟨?_, ?_, ?_, ?_⟩
  · intro halive hfull
    rw [send, if_neg (by simp [hready]), try_send, if_neg (by simp [halive]),
      if_pos (by omega)]
  · intro hdead
    rw [send, if_neg (by simp [hready]), try_send, if_pos (by simp [hdead])]
  · intro h
    rw [send] at h
    by_cases hr : st.jeocReady = true
    · rw [if_neg (by simp [hr])] at h
      rcases hts : try_send st.receiverAlive st.queue st.adcReading with e | q'
      · rcases e <;> rw [hts] at h <;> simpa using h
      · rw [hts] at h
        simpa using h
    · rw [if_pos (by simp [Bool.not_eq_true] at hr; simp [hr])] at h
      simpa using h
  · intro x st' h
    rw [recvOne] at h
    rcases hq : st.queue with _ | ⟨y, rest⟩
    · rw [hq] at h
      cases h
    · rw [hq] at h
      simp only [Option.some.injEq, Prod.mk.injEq] at h
      rw [← h.2]

/-- A concrete handler state with a full 32-sample queue, a live consumer,
and a completed conversion. -/
def fullQueueState : PiezoHandlerState :=
  { queue := List.replicate 32 [0, 0, 0, 0]
    receiverAlive := true
    adc12Enabled := true
    jeocReady := true
    adcReading := [9, 9, 9, 9]
    logWarns := [] }

theorem send_backpressure_policy_witness :
    (fullQueueState.receiverAlive = true →
      fullQueueState.queue.length = PIEZO_SENSOR_QUEUE_CAPACITY →
      send fullQueueState
        = { fullQueueState with
            adc12Enabled := false
            logWarns := fullQueueState.logWarns ++ [LogEvent.queueFull] }) ∧
    (fullQueueState.receiverAlive = false →
      send fullQueueState = { fullQueueState with
        logWarns := fullQueueState.logWarns ++ [LogEvent.noReceiver] }) ∧
    ((send fullQueueState).adc12Enabled = true →
      fullQueueState.adc12Enabled = true) ∧
    (∀ x st', recvOne fullQueueState = some (x, st') → st'.adc12Enabled = true) :=
  send_backpressure_policy fullQueueState rfl

end TaikoDrum
